import Mathlib

/-!
Shallow embedding of `src/ingestion/supabase/client.py`
(`SupabaseClient`): construction-time credential validation,
the `_retry` exponential-backoff executor, the `_chunk` batcher,
and the chunked `insert_rows` / `upsert_rows` write operations.

Python's `time.sleep` and the remote write are modelled as trace
events: each run returns its result together with the list of
invocations made and the list of sleep durations, in order.
Backoff durations (`backoff_seconds`, a Python float) are modelled
as exact rationals.
-/

namespace HistPipe

/-- Python truthiness of an `Optional[str]`: `None` and `""` are falsy. -/
def pyTruthy : Option String → Bool
  | none => false
  | some s => s ≠ ""

/-- Python `a or b` on `Optional[str]` values: `a` if truthy, else `b`.
Embeds `url or os.getenv("SUPABASE_URL")` in `__init__`. -/
def pyOrOpt (a b : Option String) : Option String :=
  if pyTruthy a then a else b

/-- Python `a or d` where `a : Optional[str]` and `d : str`.
Embeds `schema or self.default_schema` in `insert_rows`/`upsert_rows`. -/
def pyOrStr (a : Option String) (d : String) : String :=
  match a with
  | none => d
  | some s => if s = "" then d else s

/-- Configuration held by a constructed `SupabaseClient`
(`default_schema`, `max_retries`, `backoff_seconds`, `batch_size`). -/
structure ClientCfg where
  default_schema : String := "raw"
  max_retries : Nat := 5
  backoff_seconds : ℚ := 1
  batch_size : Nat := 500

/-- Resolved credentials stored on the client (`self.url`,
`self.service_role_key`). -/
structure Credentials where
  url : String
  service_role_key : String

namespace SupabaseClient

/-- Embeds `SupabaseClient.__init__`'s credential resolution and
validation: `self.url = url or os.getenv("SUPABASE_URL")`,
`self.service_role_key = service_role_key or os.getenv(...)`, then
`if not self.url or not self.service_role_key: raise ValueError(...)`.
`envUrl`/`envKey` are the values of the two environment variables
(`none` when unset). `.error ()` is the raised `ValueError`. -/
def init (url service_role_key envUrl envKey : Option String) :
    Except Unit Credentials :=
  let u := pyOrOpt url envUrl
  let k := pyOrOpt service_role_key envKey
  if ¬ pyTruthy u ∨ ¬ pyTruthy k then .error ()
  else .ok ⟨u.getD "", k.getD ""⟩

/-- One run of the `for attempt in range(1, self.max_retries + 1)` loop
body of `SupabaseClient._retry`, from attempt number `attempt` with
`rem` attempts still permitted and `last_error = last`.

`fn i` is the outcome of the `i`-th invocation of the unit of work
(`none` = returns normally, `some e` = raises `e`).  Returns the
result (`.error last_error` models `raise last_error` after the loop;
the error payload is an `Option` because Python's `last_error` starts
as `None`), the number of invocations of `fn`, and the list of
`time.sleep` durations in order.  Note the source sleeps inside the
`except` block on every failed attempt, the last one included. -/
def retryGo (fn : Nat → Option ε) (b : ℚ) :
    Option ε → Nat → Nat → Except (Option ε) Unit × Nat × List ℚ
  | last, _, 0 => (.error last, 0, [])
  | _, attempt, rem + 1 =>
    match fn attempt with
    | none => (.ok (), 1, [])
    | some e =>
      let w := b * 2 ^ (attempt - 1)
      let p := retryGo fn b (some e) (attempt + 1) rem
      (p.1, p.2.1 + 1, w :: p.2.2)

/-- Embeds `SupabaseClient._retry(fn)`: attempts numbered from 1,
budget `max_retries`, `last_error` initially `None`. -/
def retry (cfg : ClientCfg) (fn : Nat → Option ε) :
    Except (Option ε) Unit × Nat × List ℚ :=
  retryGo fn cfg.backoff_seconds none 1 cfg.max_retries

/-- Embeds Python `range(start, stop, step)` for `step ≥ 1`
(used as `range(0, len(rows), size)` in `_chunk`). -/
def rangeStep (start stop step : Nat) : List Nat :=
  if h : start < stop ∧ 0 < step then
    start :: rangeStep (start + step) stop step
  else
    []
termination_by stop - start
decreasing_by omega

/-- Embeds `SupabaseClient._chunk(rows, size)`:
`[rows[i : i + size] for i in range(0, len(rows), size)]`. -/
def chunk (rows : List α) (size : Nat) : List (List α) :=
  (rangeStep 0 rows.length size).map fun i => (rows.drop i).take size

/-- Observable trace of one `insert_rows` / `upsert_rows` call.
`result` is the call's outcome; `schemaUsed` the schema the remote
writes target (`none` when the empty-rows no-op returns before
`schema_to_use` is computed); `attempted` the chunks whose unit of
work was invoked at least once, in order; `written` the chunks whose
retry sequence ended in a successful remote write, in order; `calls`
the total number of remote-call invocations; `sleeps` all backoff
sleep durations, in order. -/
structure OpTrace (α ε : Type) where
  result : Except (Option ε) Unit
  schemaUsed : Option String
  attempted : List (List α)
  written : List (List α)
  calls : Nat
  sleeps : List ℚ

/-- Embeds the `for chunk in self._chunk(rows, self.batch_size):
self._retry(fn=...)` loop shared by `insert_rows` and `upsert_rows`,
starting at chunk index `j`.  `env j i` is the outcome of the `i`-th
invocation of chunk `j`'s unit of work.  The loop is sequential: a
chunk's retry sequence fully resolves before the next chunk starts,
and a terminal failure propagates at once, abandoning the rest. -/
def runChunks (cfg : ClientCfg) (env : Nat → Nat → Option ε) :
    List (List α) → Nat →
    Except (Option ε) Unit × List (List α) × List (List α) × Nat × List ℚ
  | [], _ => (.ok (), [], [], 0, [])
  | c :: cs, j =>
    let r := retry cfg (env j)
    match r.1 with
    | .ok _ =>
      let p := runChunks cfg env cs (j + 1)
      (p.1, c :: p.2.1, c :: p.2.2.1, r.2.1 + p.2.2.2.1, r.2.2 ++ p.2.2.2.2)
    | .error e => (.error e, [c], [], r.2.1, r.2.2)

/-- Embeds `SupabaseClient.insert_rows(table, rows, schema)`:
`if not rows: return`, then `schema_to_use = schema or
self.default_schema`, then the chunked retry loop.  The remote
service is abstracted by `env` (see `runChunks`). -/
def insert_rows (cfg : ClientCfg) (env : Nat → Nat → Option ε)
    (rows : List α) (schema : Option String) : OpTrace α ε :=
  if rows.isEmpty then ⟨.ok (), none, [], [], 0, []⟩
  else
    let s := pyOrStr schema cfg.default_schema
    let p := runChunks cfg env (chunk rows cfg.batch_size) 0
    ⟨p.1, some s, p.2.1, p.2.2.1, p.2.2.2.1, p.2.2.2.2⟩

/-- Embeds `SupabaseClient.upsert_rows(table, rows, on_conflict,
schema)`: identical control flow to `insert_rows`, the per-chunk unit
of work being a conflict-resolving upsert instead of a plain insert. -/
def upsert_rows (cfg : ClientCfg) (env : Nat → Nat → Option ε)
    (rows : List α) (schema : Option String) : OpTrace α ε :=
  if rows.isEmpty then ⟨.ok (), none, [], [], 0, []⟩
  else
    let s := pyOrStr schema cfg.default_schema
    let p := runChunks cfg env (chunk rows cfg.batch_size) 0
    ⟨p.1, some s, p.2.1, p.2.2.1, p.2.2.2.1, p.2.2.2.2⟩

end SupabaseClient

section Upsert

variable {α β : Type} [DecidableEq β]

/-- Modelled from the spec: the remote service's handling of one row of
a conflict-resolving upsert request — "rows matching an existing
record on `conflictKey` are updated in place; non-matching rows are
inserted".  `κ` projects a row to its conflict-key value; `T` is the
target table's state as an ordered list of stored rows. -/
def applyRow (κ : α → β) (T : List α) (r : α) : List α :=
  if T.any fun t => decide (κ t = κ r) then
    T.map fun t => if κ t = κ r then r else t
  else
    T ++ [r]

/-- Modelled from the spec: the table state after the remote service
processes the rows of one upsert request, in order. -/
def applyRows (κ : α → β) (T : List α) (R : List α) : List α :=
  R.foldl (applyRow κ) T

/-- Modelled from the spec: the target table's final state after an
`upsert_rows` call in which every chunk's remote write succeeds —
each chunk of `SupabaseClient.chunk rows cfg.batch_size` is applied
to the table in order (the empty-rows call is a no-op). -/
def upsertFinal (κ : α → β) (cfg : ClientCfg) (T : List α)
    (rows : List α) : List α :=
  if rows.isEmpty then T
  else (SupabaseClient.chunk rows cfg.batch_size).foldl (applyRows κ) T

end Upsert

/-! ### Characterization of the retry executor -/

/-- If the unit of work fails on every attempt `a ≤ i < a + rem`, the
retry loop makes all `rem` remaining invocations, sleeps after each of
them (the last included), and raises the error of the final one. -/
theorem retryGo_allFail {ε : Type} (fn : Nat → Option ε) (err : Nat → ε) (b : ℚ) :
    ∀ (rem a : Nat) (last : Option ε),
      (∀ i, a ≤ i → i < a + rem → fn i = some (err i)) →
      SupabaseClient.retryGo fn b last a rem =
        (.error (if rem = 0 then last else some (err (a + rem - 1))), rem,
          (List.range rem).map fun j => b * 2 ^ (a + j - 1)) := by
  intro rem
  induction rem with
  | zero => intro a last _; simp [SupabaseClient.retryGo]
  | succ n ih =>
    intro a last h
    have ha : fn a = some (err a) := h a le_rfl (by omega)
    have hrec := ih (a + 1) (some (err a)) (fun i h1 h2 => h i (by omega) (by omega))
    simp only [SupabaseClient.retryGo, ha, hrec]
    refine Prod.ext ?_ (Prod.ext rfl ?_)
    · rcases n with _ | n <;> simp <;> congr 1 <;> omega
    · rw [List.range_succ_eq_map, List.map_cons, List.map_map]
      refine List.cons_eq_cons.mpr ⟨by norm_num, ?_⟩
      refine List.map_congr_left fun j _ => ?_
      have : a + 1 + j - 1 = a + (j + 1) - 1 := by omega
      simp [Function.comp, this]

/-- If the unit of work fails on attempts `a ≤ i < a + k` and succeeds
on attempt `a + k`, and more than `k` attempts remain, the retry loop
returns successfully after `k + 1` invocations with `k` sleeps. -/
theorem retryGo_failsThenOk {ε : Type} (fn : Nat → Option ε) (err : Nat → ε) (b : ℚ) :
    ∀ (k a rem : Nat) (last : Option ε),
      (∀ i, a ≤ i → i < a + k → fn i = some (err i)) →
      fn (a + k) = none → k < rem →
      SupabaseClient.retryGo fn b last a rem =
        (.ok (), k + 1, (List.range k).map fun j => b * 2 ^ (a + j - 1)) := by
  intro k
  induction k with
  | zero =>
    intro a rem last _ hok hrem
    rcases rem with _ | n
    · omega
    · simp only [Nat.add_zero] at hok
      simp [SupabaseClient.retryGo, hok]
  | succ n ih =>
    intro a rem last h hok hrem
    rcases rem with _ | m
    · omega
    have ha : fn a = some (err a) := h a le_rfl (by omega)
    have hok' : fn (a + 1 + n) = none := by
      have : a + 1 + n = a + (n + 1) := by omega
      rw [this]; exact hok
    have hrec := ih (a + 1) m (some (err a))
      (fun i h1 h2 => h i (by omega) (by omega)) hok' (by omega)
    simp only [SupabaseClient.retryGo, ha, hrec]
    refine Prod.ext rfl (Prod.ext rfl ?_)
    rw [List.range_succ_eq_map, List.map_cons, List.map_map]
    refine List.cons_eq_cons.mpr ⟨by norm_num, ?_⟩
    refine List.map_congr_left fun j _ => ?_
    have : a + 1 + j - 1 = a + (j + 1) - 1 := by omega
    simp [Function.comp, this]

/-- `_retry` on an always-failing unit of work: all `max_retries`
invocations happen and the final invocation's error is re-raised. -/
theorem retry_allFail {ε : Type} (cfg : ClientCfg) (fn : Nat → Option ε) (err : Nat → ε)
    (hm : 1 ≤ cfg.max_retries) (h : ∀ i, fn i = some (err i)) :
    SupabaseClient.retry cfg fn =
      (.error (some (err cfg.max_retries)), cfg.max_retries,
        (List.range cfg.max_retries).map fun j => cfg.backoff_seconds * 2 ^ j) := by
  rw [SupabaseClient.retry,
    retryGo_allFail fn err cfg.backoff_seconds cfg.max_retries 1 none
      (fun i _ _ => h i)]
  have h1 : ¬ cfg.max_retries = 0 := by omega
  have h2 : 1 + cfg.max_retries - 1 = cfg.max_retries := by omega
  refine Prod.ext ?_ (Prod.ext rfl ?_)
  · simp [h1, h2]
  · exact List.map_congr_left fun j _ => by
      have : 1 + j - 1 = j := by omega
      rw [this]

/-- C1: for a unit of work failing on every invocation (`fn i = some
(err i)`) and `max_retries = m ≥ 1`, `_retry` invokes the unit of work
exactly `m` times and re-raises the error of the final, `m`-th
invocation itself — no wrapping and no synthetic exhaustion error
(the `some` is the embedding of Python's `last_error : Optional[Exception]`,
whose payload is exactly the raised error object). -/
theorem C1_retry_exhaustion {ε : Type} (cfg : ClientCfg) (fn : Nat → Option ε)
    (err : Nat → ε) (hm : 1 ≤ cfg.max_retries) (hfail : ∀ i, fn i = some (err i)) :
    (SupabaseClient.retry cfg fn).2.1 = cfg.max_retries ∧
    (SupabaseClient.retry cfg fn).1 = .error (some (err cfg.max_retries)) := by
  rw [retry_allFail cfg fn err hm hfail]
  exact ⟨rfl, rfl⟩

/-- Witness for C1 at `max_retries = 3`, `fn i = some i`. -/
theorem C1_witness :
    (SupabaseClient.retry (ε := Nat) ⟨"raw", 3, 1, 500⟩ (fun i => some i)).2.1 = 3 ∧
    (SupabaseClient.retry (ε := Nat) ⟨"raw", 3, 1, 500⟩ (fun i => some i)).1 =
      .error (some 3) :=
  C1_retry_exhaustion ⟨"raw", 3, 1, 500⟩ (fun i => some i) id (by decide)
    (fun _ => rfl)

/-- C2 (code behavior at the failing input): with `max_retries = 1`,
`backoff_seconds = 1` and an always-failing unit of work, `_retry`
performs one invocation and then sleeps for 1 second *after* the
final failed attempt, before re-raising — the sleep list is `[1]`,
not `[]`, and the total wall-clock wait is `1 = b*(2^1 - 1)`, not
`b*(2^(1-1) - 1) = 0` as the claim states.  The source's `except`
block runs `time.sleep(wait)` unconditionally, the last attempt
included. -/
theorem C2_sleep_after_final_attempt :
    SupabaseClient.retry (ε := Nat) ⟨"raw", 1, 1, 500⟩ (fun _ => some 0) =
      (.error (some 0), 1, [1]) := by
  norm_num [SupabaseClient.retry, SupabaseClient.retryGo]

/-- C4: for a unit of work failing on exactly its first `k`
invocations and succeeding on invocation `k + 1`, with
`max_retries ≥ k + 1`, `_retry` returns successfully after exactly
`k + 1` invocations, sleeping exactly `k` times with durations
`b * 2^0, b * 2^1, ..., b * 2^(k-1)` in that order (for `k = 0`:
immediate success, no sleep, since `List.range 0 = []`). -/
theorem C4_retry_recovery {ε : Type} (cfg : ClientCfg) (fn : Nat → Option ε)
    (err : Nat → ε) (k : Nat) (hm : k + 1 ≤ cfg.max_retries)
    (hfail : ∀ i, 1 ≤ i → i ≤ k → fn i = some (err i)) (hok : fn (k + 1) = none) :
    SupabaseClient.retry cfg fn =
      (.ok (), k + 1, (List.range k).map fun j => cfg.backoff_seconds * 2 ^ j) := by
  rw [SupabaseClient.retry,
    retryGo_failsThenOk fn err cfg.backoff_seconds k 1 cfg.max_retries none
      (fun i h1 h2 => hfail i h1 (by omega))
      (by rw [show 1 + k = k + 1 by omega]; exact hok) (by omega)]
  refine Prod.ext rfl (Prod.ext rfl ?_)
  exact List.map_congr_left fun j _ => by rw [show 1 + j - 1 = j by omega]

/-- Witness for C4 at `k = 2`, `max_retries = 5`, `b = 1`. -/
theorem C4_witness :
    SupabaseClient.retry (ε := Nat) ⟨"raw", 5, 1, 500⟩
      (fun i => if i ≤ 2 then some i else none) = (.ok (), 3, [1, 2]) := by
  have h := C4_retry_recovery ⟨"raw", 5, 1, 500⟩
    (fun i => if i ≤ 2 then some i else none) id 2 (by decide)
    (fun i _ h2 => by simp [h2]) (by simp)
  rw [h]
  norm_num [List.range_succ]

/-! ### Characterization of the chunker -/

theorem rangeStep_shift (s k : Nat) :
    ∀ (n a b : Nat), b - a ≤ n →
      SupabaseClient.rangeStep (a + k) (b + k) s =
        (SupabaseClient.rangeStep a b s).map (· + k) := by
  intro n
  induction n with
  | zero =>
    intro a b hab
    have h1 : ¬(a < b ∧ 0 < s) := by omega
    have h2 : ¬(a + k < b + k ∧ 0 < s) := by omega
    rw [SupabaseClient.rangeStep, dif_neg h2]
    conv_rhs => rw [SupabaseClient.rangeStep, dif_neg h1]
    rfl
  | succ n ih =>
    intro a b hab
    by_cases h : a < b ∧ 0 < s
    · have h' : a + k < b + k ∧ 0 < s := ⟨by omega, h.2⟩
      rw [SupabaseClient.rangeStep, dif_pos h']
      conv_rhs => rw [SupabaseClient.rangeStep, dif_pos h]
      rw [List.map_cons, show a + k + s = a + s + k from by omega,
        ih (a + s) b (by omega)]
    · have h' : ¬(a + k < b + k ∧ 0 < s) := by omega
      rw [SupabaseClient.rangeStep, dif_neg h']
      conv_rhs => rw [SupabaseClient.rangeStep, dif_neg h]
      rfl

theorem chunk_nil {α : Type} (s : Nat) : SupabaseClient.chunk ([] : List α) s = [] := by
  rw [SupabaseClient.chunk, SupabaseClient.rangeStep]
  simp

/-- Unfolding of `_chunk` on a non-empty list: the first `size`
elements, then the chunks of the rest. -/
theorem chunk_cons {α : Type} (s : Nat) (hs : 1 ≤ s) (rows : List α)
    (hne : rows ≠ []) :
    SupabaseClient.chunk rows s =
      rows.take s :: SupabaseClient.chunk (rows.drop s) s := by
  have hlen : 0 < rows.length := List.length_pos.mpr hne
  rw [SupabaseClient.chunk, SupabaseClient.chunk,
    SupabaseClient.rangeStep, dif_pos ⟨hlen, by omega⟩, List.map_cons,
    List.drop_zero, List.length_drop]
  refine List.cons_eq_cons.mpr ⟨rfl, ?_⟩
  rcases le_or_lt rows.length s with hle | hlt
  · have h0 : rows.length - s = 0 := by omega
    rw [h0, SupabaseClient.rangeStep, dif_neg (by omega),
      SupabaseClient.rangeStep, dif_neg (by omega)]
    rfl
  · have hshift := rangeStep_shift s s (rows.length - s) 0 (rows.length - s) le_rfl
    rw [Nat.zero_add, Nat.sub_add_cancel (by omega)] at hshift
    rw [Nat.zero_add, hshift, List.map_map]
    refine List.map_congr_left fun i _ => ?_
    simp only [Function.comp_apply, List.drop_drop]
    rw [Nat.add_comm i s]

/-- Concatenating the chunks in order reconstructs the input. -/
theorem chunk_join {α : Type} (s : Nat) (hs : 1 ≤ s) (rows : List α) :
    (SupabaseClient.chunk rows s).flatten = rows := by
  have key : ∀ (n : Nat) (l : List α), l.length ≤ n →
      (SupabaseClient.chunk l s).flatten = l := by
    intro n
    induction n with
    | zero =>
      intro l hl
      have : l = [] := List.eq_nil_of_length_eq_zero (by omega)
      rw [this, chunk_nil, List.flatten_nil]
    | succ n ih =>
      intro l hl
      rcases eq_or_ne l [] with hnil | hne
      · rw [hnil, chunk_nil, List.flatten_nil]
      · rw [chunk_cons s hs l hne, List.flatten_cons,
          ih (l.drop s) (by rw [List.length_drop]; omega),
          List.take_append_drop]
  exact key rows.length rows le_rfl

/-- A non-empty input yields at least one chunk. -/
theorem chunk_ne_nil {α : Type} (s : Nat) (hs : 1 ≤ s) (rows : List α)
    (hne : rows ≠ []) : SupabaseClient.chunk rows s ≠ [] := by
  rw [chunk_cons s hs rows hne]
  exact List.cons_ne_nil _ _

/-- The number of chunks is `⌈|rows| / s⌉`, written `(|rows| + s - 1) / s`
in truncating natural division. -/
theorem chunk_length {α : Type} (s : Nat) (hs : 1 ≤ s) (rows : List α) :
    (SupabaseClient.chunk rows s).length = (rows.length + s - 1) / s := by
  have key : ∀ (n : Nat) (l : List α), l.length ≤ n →
      (SupabaseClient.chunk l s).length = (l.length + s - 1) / s := by
    intro n
    induction n with
    | zero =>
      intro l hl
      have h0 : l = [] := List.eq_nil_of_length_eq_zero (by omega)
      rw [h0, chunk_nil]
      simp [Nat.div_eq_of_lt (by omega : s - 1 < s)]
    | succ n ih =>
      intro l hl
      rcases eq_or_ne l [] with hnil | hne
      · rw [hnil, chunk_nil]
        simp [Nat.div_eq_of_lt (by omega : s - 1 < s)]
      · have hpos : 0 < l.length := List.length_pos.mpr hne
        rw [chunk_cons s hs l hne, List.length_cons,
          ih (l.drop s) (by rw [List.length_drop]; omega), List.length_drop]
        rcases le_or_lt l.length s with hle | hlt
        · have h0 : l.length - s = 0 := by omega
          rw [h0]
          rw [Nat.div_eq_of_lt (by omega : 0 + s - 1 < s),
            Nat.div_eq_of_lt_le (by omega : 1 * s ≤ l.length + s - 1)
              (by omega : l.length + s - 1 < (1 + 1) * s)]
        · have e1 : l.length - s + s - 1 = l.length - 1 := by omega
          have e2 : l.length + s - 1 = l.length - 1 + s := by omega
          rw [e1, e2, Nat.add_div_right _ (by omega : 0 < s)]

  exact key rows.length rows le_rfl

/-- Every chunk except possibly the last has length exactly `s`. -/
theorem chunk_dropLast_length {α : Type} (s : Nat) (hs : 1 ≤ s) (rows : List α) :
    ∀ c ∈ (SupabaseClient.chunk rows s).dropLast, c.length = s := by
  have key : ∀ (n : Nat) (l : List α), l.length ≤ n →
      ∀ c ∈ (SupabaseClient.chunk l s).dropLast, c.length = s := by
    intro n
    induction n with
    | zero =>
      intro l hl
      have h0 : l = [] := List.eq_nil_of_length_eq_zero (by omega)
      rw [h0, chunk_nil]
      intro c hc
      simp at hc
    | succ n ih =>
      intro l hl
      rcases eq_or_ne l [] with hnil | hne
      · rw [hnil, chunk_nil]
        intro c hc
        simp at hc
      · rw [chunk_cons s hs l hne]
        rcases le_or_lt l.length s with hle | hlt
        · have hdrop : l.drop s = [] := List.drop_eq_nil_of_le hle
          rw [hdrop, chunk_nil]
          intro c hc
          simp at hc
        · have hne' : SupabaseClient.chunk (l.drop s) s ≠ [] :=
            chunk_ne_nil s hs _ (by
              intro h0
              have := congrArg List.length h0
              rw [List.length_drop] at this
              simp at this
              omega)
          rw [List.dropLast_cons_of_ne_nil hne']
          intro c hc
          rcases List.mem_cons.mp hc with hc | hc
          · rw [hc, List.length_take]
            omega
          · exact ih (l.drop s) (by rw [List.length_drop]; omega) c hc
  exact key rows.length rows le_rfl

/-- Every chunk has length at most `s`. -/
theorem chunk_mem_length_le {α : Type} (s : Nat) (hs : 1 ≤ s) (rows : List α) :
    ∀ c ∈ SupabaseClient.chunk rows s, c.length ≤ s := by
  have key : ∀ (n : Nat) (l : List α), l.length ≤ n →
      ∀ c ∈ SupabaseClient.chunk l s, c.length ≤ s := by
    intro n
    induction n with
    | zero =>
      intro l hl
      have h0 : l = [] := List.eq_nil_of_length_eq_zero (by omega)
      rw [h0, chunk_nil]
      intro c hc
      simp at hc
    | succ n ih =>
      intro l hl
      rcases eq_or_ne l [] with hnil | hne
      · rw [hnil, chunk_nil]
        intro c hc
        simp at hc
      · rw [chunk_cons s hs l hne]
        intro c hc
        rcases List.mem_cons.mp hc with hc | hc
        · rw [hc, List.length_take]
          omega
        · exact ih (l.drop s) (by rw [List.length_drop]; omega) c hc
  exact key rows.length rows le_rfl

/-- C3: for every RowSet and every `size ≥ 1`, `_chunk` partitions the
input into consecutive slices: their concatenation reconstructs the
input exactly, every chunk except possibly the last has length exactly
`size`, the number of chunks is `⌈|rows| / size⌉` (written
`(|rows| + size - 1) / size` in truncating natural division), and the
empty RowSet yields the empty chunk sequence. -/
theorem C3_chunker {α : Type} (rows : List α) (s : Nat) (hs : 1 ≤ s) :
    (SupabaseClient.chunk rows s).flatten = rows ∧
    (∀ c ∈ (SupabaseClient.chunk rows s).dropLast, c.length = s) ∧
    (SupabaseClient.chunk rows s).length = (rows.length + s - 1) / s ∧
    SupabaseClient.chunk ([] : List α) s = [] :=
  ⟨chunk_join s hs rows, chunk_dropLast_length s hs rows,
    chunk_length s hs rows, chunk_nil s⟩

/-- Witness for C3 at `rows = [10, 20, 30, 40, 50]`, `size = 2`. -/
theorem C3_witness :
    (SupabaseClient.chunk [10, 20, 30, 40, 50] 2).flatten = [10, 20, 30, 40, 50] ∧
    (∀ c ∈ (SupabaseClient.chunk [10, 20, 30, 40, 50] 2).dropLast, c.length = 2) ∧
    (SupabaseClient.chunk [10, 20, 30, 40, 50] 2).length = (5 + 2 - 1) / 2 ∧
    SupabaseClient.chunk ([] : List Nat) 2 = [] :=
  C3_chunker [10, 20, 30, 40, 50] 2 (by decide)

/-! ### The chunked write operations -/

/-- A unit of work that succeeds on its first invocation makes the
retry loop return at once: one call, no sleep. -/
theorem retry_first_ok {ε : Type} (cfg : ClientCfg) (fn : Nat → Option ε)
    (hm : 1 ≤ cfg.max_retries) (h : fn 1 = none) :
    SupabaseClient.retry cfg fn = (.ok (), 1, []) := by
  obtain ⟨m, hm'⟩ : ∃ m, cfg.max_retries = m + 1 :=
    ⟨cfg.max_retries - 1, by omega⟩
  rw [SupabaseClient.retry, hm']
  simp [SupabaseClient.retryGo, h]

/-- When every chunk's first remote call succeeds, the chunk loop
writes every chunk in order with one call per chunk and no sleeps. -/
theorem runChunks_allOk {α ε : Type} (cfg : ClientCfg) (env : Nat → Nat → Option ε)
    (hm : 1 ≤ cfg.max_retries) (henv : ∀ j, env j 1 = none) :
    ∀ (chunks : List (List α)) (j0 : Nat),
      SupabaseClient.runChunks cfg env chunks j0 =
        (.ok (), chunks, chunks, chunks.length, []) := by
  intro chunks
  induction chunks with
  | nil => intro j0; rfl
  | cons c cs ih =>
    intro j0
    simp only [SupabaseClient.runChunks, retry_first_ok cfg (env j0) hm (henv j0),
      ih (j0 + 1)]
    simp [Nat.add_comm]

/-- When the chunks at relative indices `0 .. j-1` succeed and the one
at relative index `j` terminally fails with `e`, the chunk loop stops
there: it raises `e`, has attempted exactly the first `j + 1` chunks
and written exactly the first `j`. -/
theorem runChunks_failAt {α ε : Type} (cfg : ClientCfg) (env : Nat → Nat → Option ε)
    (e : Option ε) :
    ∀ (chunks : List (List α)) (j0 j : Nat), j < chunks.length →
      (∀ i, i < j → (SupabaseClient.retry cfg (env (j0 + i))).1 = .ok ()) →
      (SupabaseClient.retry cfg (env (j0 + j))).1 = .error e →
      (SupabaseClient.runChunks cfg env chunks j0).1 = .error e ∧
      (SupabaseClient.runChunks cfg env chunks j0).2.1 = chunks.take (j + 1) ∧
      (SupabaseClient.runChunks cfg env chunks j0).2.2.1 = chunks.take j := by
  intro chunks
  induction chunks with
  | nil => intro j0 j hj _ _; simp at hj
  | cons c cs ih =>
    intro j0 j hj hok herr
    rcases j with _ | j'
    · rw [Nat.add_zero] at herr
      simp [SupabaseClient.runChunks, herr]
    · have h0 : (SupabaseClient.retry cfg (env j0)).1 = .ok () := by
        have := hok 0 (by omega)
        rwa [Nat.add_zero] at this
      have hrec := ih (j0 + 1) j' (by simpa using hj)
        (fun i hi => by
          have := hok (i + 1) (by omega)
          rwa [show j0 + (i + 1) = j0 + 1 + i from by omega] at this)
        (by rwa [show j0 + 1 + j' = j0 + (j' + 1) from by omega])
      simp only [SupabaseClient.runChunks, h0, List.take_succ_cons]
      exact ⟨hrec.1, by rw [hrec.2.1], by rw [hrec.2.2]⟩

/-- C5: with batch size `b ≥ 1`, a retry budget of at least one
attempt, a non-empty RowSet and a remote service on which no call
fails, `insert_rows` and `upsert_rows` behave identically and issue
exactly `⌈N / b⌉` remote write calls — the chunks of the input, in
order, so that each call carries at most `b` rows and their
concatenation in call order is the original RowSet — with no sleeps.
Chunk `N+1` starts only after chunk `N` resolves: `runChunks` is
sequential by construction. -/
theorem C5_batching {α ε : Type} (cfg : ClientCfg) (env : Nat → Nat → Option ε)
    (rows : List α) (schema : Option String)
    (hb : 1 ≤ cfg.batch_size) (hm : 1 ≤ cfg.max_retries)
    (hrows : rows ≠ []) (henv : ∀ j, env j 1 = none) :
    SupabaseClient.upsert_rows cfg env rows schema =
      SupabaseClient.insert_rows cfg env rows schema ∧
    (SupabaseClient.insert_rows cfg env rows schema).result = .ok () ∧
    (SupabaseClient.insert_rows cfg env rows schema).calls =
      (rows.length + cfg.batch_size - 1) / cfg.batch_size ∧
    (SupabaseClient.insert_rows cfg env rows schema).written =
      SupabaseClient.chunk rows cfg.batch_size ∧
    (SupabaseClient.insert_rows cfg env rows schema).written.flatten = rows ∧
    (∀ c ∈ (SupabaseClient.insert_rows cfg env rows schema).written,
      c.length ≤ cfg.batch_size) ∧
    (SupabaseClient.insert_rows cfg env rows schema).sleeps = [] := by
  have hE : rows.isEmpty = false := by
    rcases rows with _ | _
    · exact absurd rfl hrows
    · rfl
  have hrun := runChunks_allOk cfg env hm henv
    (SupabaseClient.chunk rows cfg.batch_size) 0
  have hIns : SupabaseClient.insert_rows cfg env rows schema =
      ⟨.ok (), some (pyOrStr schema cfg.default_schema),
        SupabaseClient.chunk rows cfg.batch_size,
        SupabaseClient.chunk rows cfg.batch_size,
        (SupabaseClient.chunk rows cfg.batch_size).length, []⟩ := by
    simp only [SupabaseClient.insert_rows, hE, Bool.false_eq_true, if_false, hrun]
  have hUps : SupabaseClient.upsert_rows cfg env rows schema =
      ⟨.ok (), some (pyOrStr schema cfg.default_schema),
        SupabaseClient.chunk rows cfg.batch_size,
        SupabaseClient.chunk rows cfg.batch_size,
        (SupabaseClient.chunk rows cfg.batch_size).length, []⟩ := by
    simp only [SupabaseClient.upsert_rows, hE, Bool.false_eq_true, if_false, hrun]
  refine ⟨hUps.trans hIns.symm, by rw [hIns],
    by rw [hIns]; exact chunk_length _ hb rows, by rw [hIns],
    by rw [hIns]; exact chunk_join _ hb rows,
    by rw [hIns]; exact chunk_mem_length_le _ hb rows, by rw [hIns]⟩

/-- Witness for C5: 5 rows, batch size 2, everything succeeds. -/
theorem C5_witness :
    SupabaseClient.upsert_rows (ε := Nat) ⟨"raw", 5, 1, 2⟩ (fun _ _ => none)
      [10, 20, 30, 40, 50] none =
      SupabaseClient.insert_rows (ε := Nat) ⟨"raw", 5, 1, 2⟩ (fun _ _ => none)
        [10, 20, 30, 40, 50] none ∧
    (SupabaseClient.insert_rows (ε := Nat) ⟨"raw", 5, 1, 2⟩ (fun _ _ => none)
      [10, 20, 30, 40, 50] none).result = .ok () ∧
    (SupabaseClient.insert_rows (ε := Nat) ⟨"raw", 5, 1, 2⟩ (fun _ _ => none)
      [10, 20, 30, 40, 50] none).calls = (5 + 2 - 1) / 2 ∧
    (SupabaseClient.insert_rows (ε := Nat) ⟨"raw", 5, 1, 2⟩ (fun _ _ => none)
      [10, 20, 30, 40, 50] none).written = SupabaseClient.chunk [10, 20, 30, 40, 50] 2 ∧
    (SupabaseClient.insert_rows (ε := Nat) ⟨"raw", 5, 1, 2⟩ (fun _ _ => none)
      [10, 20, 30, 40, 50] none).written.flatten = [10, 20, 30, 40, 50] ∧
    (∀ c ∈ (SupabaseClient.insert_rows (ε := Nat) ⟨"raw", 5, 1, 2⟩ (fun _ _ => none)
      [10, 20, 30, 40, 50] none).written, c.length ≤ 2) ∧
    (SupabaseClient.insert_rows (ε := Nat) ⟨"raw", 5, 1, 2⟩ (fun _ _ => none)
      [10, 20, 30, 40, 50] none).sleeps = [] :=
  C5_batching ⟨"raw", 5, 1, 2⟩ (fun _ _ => none) [10, 20, 30, 40, 50] none
    (by decide) (by decide) (by decide) (fun _ => rfl)

/-- C6: if the chunks before index `j` all succeed and every one of
the `max_retries` attempts on chunk `j` fails (`env j a = some (err
a)`), the whole operation raises exactly chunk `j`'s final error —
the one from its `max_retries`-th, last invocation — the chunks
before `j` remain written (no rollback), and no chunk after `j` is
ever attempted.  `insert_rows` and `upsert_rows` behave identically. -/
theorem C6_abort_on_first_terminal_failure {α ε : Type} (cfg : ClientCfg)
    (env : Nat → Nat → Option ε) (rows : List α) (schema : Option String)
    (err : Nat → ε) (j : Nat) (hm : 1 ≤ cfg.max_retries)
    (hj : j < (SupabaseClient.chunk rows cfg.batch_size).length)
    (hok : ∀ i, i < j → (SupabaseClient.retry cfg (env i)).1 = .ok ())
    (hfail : ∀ a, 1 ≤ a → a ≤ cfg.max_retries → env j a = some (err a)) :
    (SupabaseClient.insert_rows cfg env rows schema).result =
      .error (some (err cfg.max_retries)) ∧
    (SupabaseClient.insert_rows cfg env rows schema).written =
      (SupabaseClient.chunk rows cfg.batch_size).take j ∧
    (SupabaseClient.insert_rows cfg env rows schema).attempted =
      (SupabaseClient.chunk rows cfg.batch_size).take (j + 1) ∧
    SupabaseClient.upsert_rows cfg env rows schema =
      SupabaseClient.insert_rows cfg env rows schema := by
  have hrows : rows ≠ [] := by
    intro h0
    rw [h0, chunk_nil] at hj
    simp at hj
  have hE : rows.isEmpty = false := by
    rcases rows with _ | _
    · exact absurd rfl hrows
    · rfl
  have herr : (SupabaseClient.retry cfg (env j)).1 =
      .error (some (err cfg.max_retries)) := by
    rw [SupabaseClient.retry,
      retryGo_allFail (env j) err cfg.backoff_seconds cfg.max_retries 1 none
        (fun i h1 h2 => hfail i h1 (by omega))]
    simp only [if_neg (by omega : ¬ cfg.max_retries = 0)]
    rw [show 1 + cfg.max_retries - 1 = cfg.max_retries from by omega]
  have hrun := runChunks_failAt cfg env (some (err cfg.max_retries))
    (SupabaseClient.chunk rows cfg.batch_size) 0 j hj
    (fun i hi => by rw [Nat.zero_add]; exact hok i hi)
    (by rw [Nat.zero_add]; exact herr)
  refine ⟨?_, ?_, ?_, rfl⟩
  · simp only [SupabaseClient.insert_rows, hE, Bool.false_eq_true, if_false]
    exact hrun.1
  · simp only [SupabaseClient.insert_rows, hE, Bool.false_eq_true, if_false]
    exact hrun.2.2
  · simp only [SupabaseClient.insert_rows, hE, Bool.false_eq_true, if_false]
    exact hrun.2.1

/-- Witness for C6: 3 chunks of batch size 1, chunk index 1 always
fails, `max_retries = 2`. -/
theorem C6_witness :
    (SupabaseClient.insert_rows ⟨"raw", 2, 1, 1⟩
      (fun j a => if j = 1 then some (10 * a) else none) [7, 8, 9] none).result =
        .error (some 20) ∧
    (SupabaseClient.insert_rows ⟨"raw", 2, 1, 1⟩
      (fun j a => if j = 1 then some (10 * a) else none) [7, 8, 9] none).written =
        (SupabaseClient.chunk [7, 8, 9] 1).take 1 ∧
    (SupabaseClient.insert_rows ⟨"raw", 2, 1, 1⟩
      (fun j a => if j = 1 then some (10 * a) else none) [7, 8, 9] none).attempted =
        (SupabaseClient.chunk [7, 8, 9] 1).take 2 ∧
    SupabaseClient.upsert_rows ⟨"raw", 2, 1, 1⟩
      (fun j a => if j = 1 then some (10 * a) else none) [7, 8, 9] none =
      SupabaseClient.insert_rows ⟨"raw", 2, 1, 1⟩
        (fun j a => if j = 1 then some (10 * a) else none) [7, 8, 9] none :=
  C6_abort_on_first_terminal_failure ⟨"raw", 2, 1, 1⟩
    (fun j a => if j = 1 then some (10 * a) else none) [7, 8, 9] none
    (fun a => 10 * a) 1 (by decide)
    (by
      show 1 < (SupabaseClient.chunk [7, 8, 9] 1).length
      rw [chunk_length 1 (by decide) [7, 8, 9]]
      decide)
    (fun i hi => by
      interval_cases i
      · rw [retry_first_ok ⟨"raw", 2, 1, 1⟩ _ (by decide) rfl])
    (fun a _ _ => rfl)

/-- C7: calling `insert_rows` or `upsert_rows` with the empty RowSet
is a complete no-op: it returns successfully having invoked no unit
of work, made no remote call and slept never. -/
theorem C7_empty_noop {α ε : Type} (cfg : ClientCfg) (env : Nat → Nat → Option ε)
    (schema : Option String) :
    SupabaseClient.insert_rows cfg env ([] : List α) schema =
      ⟨.ok (), none, [], [], 0, []⟩ ∧
    SupabaseClient.upsert_rows cfg env ([] : List α) schema =
      ⟨.ok (), none, [], [], 0, []⟩ :=
  ⟨rfl, rfl⟩

/-- C10: a per-call `schema=""` argument (not only `None`) falls back
to the client's default schema, because `schema or self.default_schema`
tests Python truthiness, and the empty string is falsy: the remote
writes target `default_schema`. -/
theorem C10_empty_schema_falls_back {α ε : Type} (cfg : ClientCfg)
    (env : Nat → Nat → Option ε) (rows : List α) (hrows : rows ≠ []) :
    (SupabaseClient.insert_rows cfg env rows (some "")).schemaUsed =
      some cfg.default_schema ∧
    (SupabaseClient.upsert_rows cfg env rows (some "")).schemaUsed =
      some cfg.default_schema := by
  have hE : rows.isEmpty = false := by
    rcases rows with _ | _
    · exact absurd rfl hrows
    · rfl
  constructor
  · simp [SupabaseClient.insert_rows, hE, pyOrStr]
  · simp [SupabaseClient.upsert_rows, hE, pyOrStr]

/-- Witness for C10 at one row and the default configuration. -/
theorem C10_witness :
    (SupabaseClient.insert_rows (ε := Nat) ⟨"raw", 5, 1, 500⟩ (fun _ _ => none)
      [0] (some "")).schemaUsed = some "raw" ∧
    (SupabaseClient.upsert_rows (ε := Nat) ⟨"raw", 5, 1, 500⟩ (fun _ _ => none)
      [0] (some "")).schemaUsed = some "raw" :=
  C10_empty_schema_falls_back ⟨"raw", 5, 1, 500⟩ (fun _ _ => none) [0]
    (by decide)

/-! ### Construction-time credential validation -/

theorem pyTruthy_eq_false (o : Option String) :
    pyTruthy o = false ↔ o = none ∨ o = some "" := by
  rcases o with _ | s
  · simp [pyTruthy]
  · simp [pyTruthy]

theorem pyOrOpt_truthy_eq_false (a b : Option String) :
    pyTruthy (pyOrOpt a b) = false ↔ pyTruthy a = false ∧ pyTruthy b = false := by
  rw [pyOrOpt]
  by_cases h : pyTruthy a
  · simp [h]
  · simp [if_neg h, Bool.not_eq_true] at h ⊢
    simp [h]

/-- C8 counterexample: passing the URL explicitly as the empty string
`""` with the `SUPABASE_URL` environment variable unset and a
non-empty credential.  Both values are *present* in the claim's
sense (the explicit URL parameter is supplied, and the credential is
supplied and non-empty), so the claim as stated demands that
construction succeed; the code raises `ValueError`, because
`url or os.getenv(...)` and `if not self.url` test truthiness and
`""` is falsy. -/
theorem C8_counterexample :
    SupabaseClient.init (some "") (some "service-key") none none = .error () :=
  rfl

/-- C8 (amended): construction raises `ValueError` iff, for the
endpoint URL or for the credential, the explicit parameter is missing
or empty *and* the corresponding environment variable is missing or
empty; when each of the two resolves to a non-empty value through
either channel, construction succeeds.  The error is raised
synchronously by `__init__`, before any write is attempted. -/
theorem C8_construction_validation (url key envUrl envKey : Option String) :
    SupabaseClient.init url key envUrl envKey = .error () ↔
      ((url = none ∨ url = some "") ∧ (envUrl = none ∨ envUrl = some "")) ∨
      ((key = none ∨ key = some "") ∧ (envKey = none ∨ envKey = some "")) := by
  rw [SupabaseClient.init]
  constructor
  · intro h
    by_cases hc : ¬ pyTruthy (pyOrOpt url envUrl) = true ∨
        ¬ pyTruthy (pyOrOpt key envKey) = true
    · rcases hc with hc | hc
      · exact Or.inl ((pyOrOpt_truthy_eq_false url envUrl).mp
          (Bool.not_eq_true _ ▸ hc) |>.imp
          (pyTruthy_eq_false url).mp (pyTruthy_eq_false envUrl).mp)
      · exact Or.inr ((pyOrOpt_truthy_eq_false key envKey).mp
          (Bool.not_eq_true _ ▸ hc) |>.imp
          (pyTruthy_eq_false key).mp (pyTruthy_eq_false envKey).mp)
    · rw [if_neg hc] at h
      exact absurd h (by simp)
  · intro h
    have hc : ¬ pyTruthy (pyOrOpt url envUrl) = true ∨
        ¬ pyTruthy (pyOrOpt key envKey) = true := by
      rcases h with h | h
      · exact Or.inl (by
          rw [Bool.not_eq_true, pyOrOpt_truthy_eq_false,
            pyTruthy_eq_false, pyTruthy_eq_false]
          exact h)
      · exact Or.inr (by
          rw [Bool.not_eq_true, pyOrOpt_truthy_eq_false,
            pyTruthy_eq_false, pyTruthy_eq_false]
          exact h)
    rw [if_pos hc]

/-! ### Idempotence of the modelled upsert semantics -/

section UpsertLemmas

variable {α β : Type} [DecidableEq β] (κ : α → β)

theorem applyRows_append (T X Y : List α) :
    applyRows κ T (X ++ Y) = applyRows κ (applyRows κ T X) Y :=
  List.foldl_append _ _ _ _

theorem applyRows_singleton_snoc (T Pr : List α) (r : α) :
    applyRows κ T (Pr ++ [r]) = applyRow κ (applyRows κ T Pr) r := by
  simp [applyRows, List.foldl_append]

theorem foldl_applyRows_flatten (L : List (List α)) :
    ∀ T : List α, L.foldl (applyRows κ) T = applyRows κ T L.flatten := by
  induction L with
  | nil => intro T; rfl
  | cons c cs ih =>
    intro T
    rw [List.foldl_cons, List.flatten_cons, applyRows_append, ih]

/-- The key of any stored row survives an upsert of one row. -/
theorem mem_map_applyRow {k : β} {T : List α} (r : α) (hk : k ∈ T.map κ) :
    k ∈ (applyRow κ T r).map κ := by
  rw [applyRow]
  by_cases h : T.any fun t => decide (κ t = κ r)
  · rw [if_pos h, List.map_map]
    obtain ⟨t, ht, htk⟩ := List.mem_map.mp hk
    refine List.mem_map.mpr ⟨t, ht, ?_⟩
    show κ (if κ t = κ r then r else t) = k
    by_cases hc : κ t = κ r
    · rw [if_pos hc, ← hc, htk]
    · rw [if_neg hc, htk]
  · rw [if_neg h, List.map_append]
    exact List.mem_append_left _ hk

/-- The upserted row's key is stored after the upsert. -/
theorem self_mem_map_applyRow (T : List α) (r : α) :
    κ r ∈ (applyRow κ T r).map κ := by
  rw [applyRow]
  by_cases h : T.any fun t => decide (κ t = κ r)
  · rw [if_pos h, List.map_map]
    obtain ⟨t, ht, htk⟩ := List.any_eq_true.mp h
    refine List.mem_map.mpr ⟨t, ht, ?_⟩
    simp only [decide_eq_true_eq] at htk
    simp [Function.comp, htk]
  · rw [if_neg h, List.map_append]
    exact List.mem_append_right _ (by simp)

/-- Stored keys survive a whole upsert request. -/
theorem mem_map_applyRows {k : β} (R : List α) :
    ∀ T : List α, k ∈ T.map κ → k ∈ (applyRows κ T R).map κ := by
  induction R with
  | nil => intro T hk; exact hk
  | cons r rs ih =>
    intro T hk
    exact ih (applyRow κ T r) (mem_map_applyRow κ r hk)

/-- Right after upserting `r`, every stored row with `r`'s key is `r`. -/
theorem applyRow_key_all_eq (T : List α) (r : α) :
    ∀ t ∈ applyRow κ T r, κ t = κ r → t = r := by
  rw [applyRow]
  by_cases h : T.any fun t => decide (κ t = κ r)
  · rw [if_pos h]
    intro t ht htk
    obtain ⟨u, hu, huk⟩ := List.mem_map.mp ht
    by_cases hc : κ u = κ r
    · rw [if_pos hc] at huk
      exact huk.symm
    · rw [if_neg hc] at huk
      exact absurd (huk ▸ htk) hc
  · rw [if_neg h]
    intro t ht htk
    rcases List.mem_append.mp ht with ht | ht
    · exact absurd (List.any_eq_true.mpr ⟨t, ht, by simp [htk]⟩) h
    · simpa using ht

/-- Upserting a row with a different key preserves "every stored row
with key `k` is `r`". -/
theorem applyRow_key_all_eq_other {k : β} {r : α} (T : List α) (s : α)
    (hs : κ s ≠ k) (hall : ∀ t ∈ T, κ t = k → t = r) :
    ∀ t ∈ applyRow κ T s, κ t = k → t = r := by
  rw [applyRow]
  by_cases h : T.any fun t => decide (κ t = κ s)
  · rw [if_pos h]
    intro t ht htk
    obtain ⟨u, hu, huk⟩ := List.mem_map.mp ht
    by_cases hc : κ u = κ s
    · rw [if_pos hc] at huk
      exact absurd (huk ▸ htk) hs
    · rw [if_neg hc] at huk
      subst huk
      exact hall u hu htk
  · rw [if_neg h]
    intro t ht htk
    rcases List.mem_append.mp ht with ht | ht
    · exact hall t ht htk
    · have : t = s := by simpa using ht
      exact absurd (this ▸ htk) hs

/-- A request none of whose rows has key `k` preserves "every stored
row with key `k` is `r`". -/
theorem applyRows_key_all_eq {k : β} {r : α} (R : List α) :
    ∀ T : List α, (∀ s ∈ R, κ s ≠ k) → (∀ t ∈ T, κ t = k → t = r) →
      ∀ t ∈ applyRows κ T R, κ t = k → t = r := by
  induction R with
  | nil => intro T _ hall; exact hall
  | cons s rs ih =>
    intro T hR hall
    exact ih (applyRow κ T s) (fun x hx => hR x (List.mem_cons_of_mem s hx))
      (applyRow_key_all_eq_other κ T s (hR s (List.mem_cons_self s rs)) hall)

/-- Upserting `r` into a table whose key-`κ r` rows are all already
`r` changes nothing. -/
theorem applyRow_eq_self {r : α} (T : List α)
    (hall : ∀ t ∈ T, κ t = κ r → t = r) (hk : κ r ∈ T.map κ) :
    applyRow κ T r = T := by
  rw [applyRow]
  obtain ⟨t, ht, htk⟩ := List.mem_map.mp hk
  rw [if_pos (List.any_eq_true.mpr ⟨t, ht, by simp [htk]⟩)]
  have : ∀ t ∈ T, (if κ t = κ r then r else t) = id t := by
    intro u hu
    by_cases hc : κ u = κ r
    · rw [if_pos hc, id]
      exact (hall u hu hc).symm
    · rw [if_neg hc, id]
  rw [List.map_congr_left this, List.map_id]

/-- Two table states related at key `k` (same keys positionwise, equal
rows off `k`) have equal key sequences. -/
theorem forall2_map_key {k : β} {S S' : List α}
    (h : List.Forall₂ (fun a b => κ a = κ b ∧ (κ a ≠ k → a = b)) S S') :
    S.map κ = S'.map κ := by
  induction h with
  | nil => rfl
  | cons hab _ ih => rw [List.map_cons, List.map_cons, hab.1, ih]

theorem forall2_any_key {k : β} {S S' : List α} (x : β)
    (h : List.Forall₂ (fun a b => κ a = κ b ∧ (κ a ≠ k → a = b)) S S') :
    (S.any fun t => decide (κ t = x)) = (S'.any fun t => decide (κ t = x)) := by
  induction h with
  | nil => rfl
  | cons hab _ ih => rw [List.any_cons, List.any_cons, hab.1, ih]

theorem forall2_eq_of_no_key {k : β} {S S' : List α}
    (h : List.Forall₂ (fun a b => κ a = κ b ∧ (κ a ≠ k → a = b)) S S')
    (hno : ∀ t ∈ S, κ t ≠ k) : S = S' := by
  induction h with
  | nil => rfl
  | cons hab htl ih =>
    rw [hab.2 (hno _ (List.mem_cons_self _ _)),
      ih fun t ht => hno t (List.mem_cons_of_mem _ ht)]

/-- The table after overwriting key `κ r` with `r` is related to the
original table at key `κ r`. -/
theorem overwrite_forall2 (r : α) (T : List α) :
    List.Forall₂ (fun a b => κ a = κ b ∧ (κ a ≠ κ r → a = b))
      (T.map fun t => if κ t = κ r then r else t) T := by
  induction T with
  | nil => exact List.Forall₂.nil
  | cons t ts ih =>
    rw [List.map_cons]
    refine List.Forall₂.cons ?_ ih
    by_cases hc : κ t = κ r
    · rw [if_pos hc]
      exact ⟨hc.symm, fun hn => absurd rfl hn⟩
    · rw [if_neg hc]
      exact ⟨rfl, fun _ => rfl⟩

/-- Upserting a row whose key is not `k` preserves relatedness at `k`. -/
theorem applyRow_forall2_ne {k : β} {S S' : List α} (s : α) (hs : κ s ≠ k)
    (h : List.Forall₂ (fun a b => κ a = κ b ∧ (κ a ≠ k → a = b)) S S') :
    List.Forall₂ (fun a b => κ a = κ b ∧ (κ a ≠ k → a = b))
      (applyRow κ S s) (applyRow κ S' s) := by
  have hany := forall2_any_key κ (κ s) h
  rw [applyRow, applyRow]
  by_cases hc : S.any fun t => decide (κ t = κ s)
  · rw [if_pos hc, if_pos (hany ▸ hc)]
    clear hany hc
    induction h with
    | nil => exact List.Forall₂.nil
    | @cons a b l1 l2 hab _ ih =>
      rw [List.map_cons, List.map_cons]
      refine List.Forall₂.cons ?_ ih
      by_cases hd : κ a = κ s
      · rw [if_pos hd, if_pos (hab.1 ▸ hd)]
        exact ⟨rfl, fun _ => rfl⟩
      · rw [if_neg hd, if_neg (hab.1 ▸ hd)]
        exact hab
  · rw [if_neg hc, if_neg (hany ▸ hc)]
    clear hany hc
    induction h with
    | nil => exact List.Forall₂.cons ⟨rfl, fun _ => rfl⟩ List.Forall₂.nil
    | cons hab _ ih =>
      rw [List.cons_append, List.cons_append]
      exact List.Forall₂.cons hab ih

/-- Upserting a row whose key *is* `k` collapses two states related at
`k` to the same state. -/
theorem applyRow_forall2_eq {k : β} {S S' : List α} (s : α) (hs : κ s = k)
    (h : List.Forall₂ (fun a b => κ a = κ b ∧ (κ a ≠ k → a = b)) S S') :
    applyRow κ S s = applyRow κ S' s := by
  have hany := forall2_any_key κ (κ s) h
  rw [applyRow, applyRow]
  by_cases hc : S.any fun t => decide (κ t = κ s)
  · rw [if_pos hc, if_pos (hany ▸ hc)]
    clear hany hc
    induction h with
    | nil => rfl
    | @cons a b l1 l2 hab _ ih =>
      rw [List.map_cons, List.map_cons, ih]
      by_cases hd : κ a = κ s
      · rw [if_pos hd, if_pos (hab.1 ▸ hd)]
      · rw [if_neg hd, if_neg (hab.1 ▸ hd),
          hab.2 fun he => hd (by rw [he, hs])]
  · rw [if_neg hc, if_neg (hany ▸ hc)]
    have hno : ∀ t ∈ S, κ t ≠ k := by
      intro t ht
      have := List.any_eq_false.mp (Bool.not_eq_true _ ▸ hc) t ht
      simp only [decide_eq_true_eq] at this
      rw [← hs]
      exact this
    rw [forall2_eq_of_no_key κ h hno]

/-- Applying a request that contains a row with key `k` erases any
difference-at-`k` between two related table states. -/
theorem applyRows_congr_key {k : β} (rs : List α) :
    ∀ S S' : List α,
      List.Forall₂ (fun a b => κ a = κ b ∧ (κ a ≠ k → a = b)) S S' →
      (∃ s ∈ rs, κ s = k) → applyRows κ S rs = applyRows κ S' rs := by
  induction rs with
  | nil =>
    intro S S' _ hex
    obtain ⟨x, hx, _⟩ := hex
    exact absurd hx (List.not_mem_nil x)
  | cons s rs' ih =>
    intro S S' h hex
    show applyRows κ (applyRow κ S s) rs' = applyRows κ (applyRow κ S' s) rs'
    by_cases hs : κ s = k
    · rw [applyRow_forall2_eq κ s hs h]
    · obtain ⟨x, hx, hxk⟩ := hex
      rcases List.mem_cons.mp hx with hx | hx
      · exact absurd (hx ▸ hxk) hs
      · exact ih (applyRow κ S s) (applyRow κ S' s)
          (applyRow_forall2_ne κ s hs h) ⟨x, hx, hxk⟩

/-- Core absorption property of the modelled upsert: re-applying the
rows `R` to a table that has already absorbed `P ++ R` changes
nothing. -/
theorem applyRows_absorb (R : List α) :
    ∀ T Pr : List α,
      applyRows κ (applyRows κ T (Pr ++ R)) R = applyRows κ T (Pr ++ R) := by
  induction R with
  | nil => intro T Pr; rfl
  | cons r rs ih =>
    intro T Pr
    have hPr : Pr ++ r :: rs = (Pr ++ [r]) ++ rs := by simp
    have hVrs : applyRows κ (applyRows κ T (Pr ++ r :: rs)) rs =
        applyRows κ T (Pr ++ r :: rs) := by
      rw [hPr]
      exact ih T (Pr ++ [r])
    have hkey : κ r ∈ (applyRows κ T (Pr ++ r :: rs)).map κ := by
      rw [hPr, applyRows_append κ T (Pr ++ [r]) rs]
      refine mem_map_applyRows κ rs _ ?_
      rw [applyRows_singleton_snoc]
      exact self_mem_map_applyRow κ _ r
    show applyRows κ (applyRow κ (applyRows κ T (Pr ++ r :: rs)) r) rs =
      applyRows κ T (Pr ++ r :: rs)
    by_cases hex : ∃ s ∈ rs, κ s = κ r
    · have hany : (applyRows κ T (Pr ++ r :: rs)).any
          (fun t => decide (κ t = κ r)) = true := by
        obtain ⟨t, ht, htk⟩ := List.mem_map.mp hkey
        exact List.any_eq_true.mpr ⟨t, ht, by simp [htk]⟩
      have hrel : List.Forall₂ (fun a b => κ a = κ b ∧ (κ a ≠ κ r → a = b))
          (applyRow κ (applyRows κ T (Pr ++ r :: rs)) r)
          (applyRows κ T (Pr ++ r :: rs)) := by
        rw [applyRow, if_pos hany]
        exact overwrite_forall2 κ r _
      rw [applyRows_congr_key κ rs _ _ hrel hex, hVrs]
    · push_neg at hex
      have hall : ∀ t ∈ applyRows κ T (Pr ++ r :: rs), κ t = κ r → t = r := by
        rw [hPr, applyRows_append κ T (Pr ++ [r]) rs]
        refine applyRows_key_all_eq κ rs _ hex ?_
        rw [applyRows_singleton_snoc]
        exact applyRow_key_all_eq κ _ r
      rw [applyRow_eq_self κ _ hall hkey, hVrs]

/-- Applying the same upsert request twice yields the state of
applying it once. -/
theorem applyRows_idem (T R : List α) :
    applyRows κ (applyRows κ T R) R = applyRows κ T R := by
  have h := applyRows_absorb κ R T []
  rwa [List.nil_append] at h

/-- Re-applying the full request to a table that absorbed only a
prefix of it (a partial earlier run) yields the state of one full
application. -/
theorem applyRows_absorb_front (T pre rest : List α) :
    applyRows κ (applyRows κ T pre) (pre ++ rest) =
      applyRows κ T (pre ++ rest) := by
  rw [applyRows_append κ (applyRows κ T pre) pre rest,
    applyRows_idem κ T pre, applyRows_append κ T pre rest]

end UpsertLemmas

/-- C9: when the supplied conflict key (projection `κ`) matches the
uniqueness notion the remote service enforces, re-running the same
`upsert_rows` call on the table state it produced yields that same
state — and likewise re-running it on the state left behind by a
partial earlier run that had only written the first `j` chunks (a
partial-chunk failure) yields the state of one complete run. -/
theorem C9_upsert_idempotent {α β : Type} [DecidableEq β] (κ : α → β)
    (cfg : ClientCfg) (T rows : List α) (hb : 1 ≤ cfg.batch_size) :
    upsertFinal κ cfg (upsertFinal κ cfg T rows) rows = upsertFinal κ cfg T rows ∧
    ∀ j, upsertFinal κ cfg
        (((SupabaseClient.chunk rows cfg.batch_size).take j).foldl (applyRows κ) T)
        rows = upsertFinal κ cfg T rows := by
  rcases hrows : rows.isEmpty with hE | hE
  case true =>
    have h0 : rows = [] := List.isEmpty_iff.mp hrows
    subst h0
    constructor
    · rfl
    · intro j
      rw [chunk_nil, List.take_nil, List.foldl_nil]
  case false =>
    have hjoin : (SupabaseClient.chunk rows cfg.batch_size).flatten = rows :=
      chunk_join cfg.batch_size hb rows
    have hfinal : upsertFinal κ cfg T rows = applyRows κ T rows := by
      rw [upsertFinal, if_neg (by rw [hrows]; exact Bool.false_ne_true),
        foldl_applyRows_flatten, hjoin]
    constructor
    · rw [hfinal, upsertFinal, if_neg (by rw [hrows]; exact Bool.false_ne_true),
        foldl_applyRows_flatten, hjoin, applyRows_idem]
    · intro j
      have htake : ((SupabaseClient.chunk rows cfg.batch_size).take j).foldl
          (applyRows κ) T =
          applyRows κ T ((SupabaseClient.chunk rows cfg.batch_size).take j).flatten := by
        rw [foldl_applyRows_flatten]
      have hsplit : rows =
          ((SupabaseClient.chunk rows cfg.batch_size).take j).flatten ++
          ((SupabaseClient.chunk rows cfg.batch_size).drop j).flatten := by
        rw [← List.flatten_append, List.take_append_drop, hjoin]
      rw [hfinal, upsertFinal, if_neg (by rw [hrows]; exact Bool.false_ne_true),
        foldl_applyRows_flatten, hjoin, htake]
      calc applyRows κ (applyRows κ T
            ((SupabaseClient.chunk rows cfg.batch_size).take j).flatten) rows
          = applyRows κ (applyRows κ T
            ((SupabaseClient.chunk rows cfg.batch_size).take j).flatten)
            (((SupabaseClient.chunk rows cfg.batch_size).take j).flatten ++
             ((SupabaseClient.chunk rows cfg.batch_size).drop j).flatten) := by
            rw [← hsplit]
        _ = applyRows κ T
            (((SupabaseClient.chunk rows cfg.batch_size).take j).flatten ++
             ((SupabaseClient.chunk rows cfg.batch_size).drop j).flatten) :=
            applyRows_absorb_front κ T _ _
        _ = applyRows κ T rows := by rw [← hsplit]

/-- Witness for C9: conflict key = first component, two duplicate-key
rows in the RowSet, batch size 2, non-empty initial table. -/
theorem C9_witness :
    upsertFinal Prod.fst ⟨"raw", 5, 1, 2⟩
        (upsertFinal Prod.fst ⟨"raw", 5, 1, 2⟩ [((1 : Nat), (10 : Nat))]
          [(1, 11), (2, 20), (1, 12)])
        [(1, 11), (2, 20), (1, 12)] =
      upsertFinal Prod.fst ⟨"raw", 5, 1, 2⟩ [((1 : Nat), (10 : Nat))]
        [(1, 11), (2, 20), (1, 12)] ∧
    ∀ j, upsertFinal Prod.fst ⟨"raw", 5, 1, 2⟩
        (((SupabaseClient.chunk [((1 : Nat), (11 : Nat)), (2, 20), (1, 12)] 2).take j).foldl
          (applyRows Prod.fst) [((1 : Nat), (10 : Nat))])
        [(1, 11), (2, 20), (1, 12)] =
      upsertFinal Prod.fst ⟨"raw", 5, 1, 2⟩ [((1 : Nat), (10 : Nat))]
        [(1, 11), (2, 20), (1, 12)] :=
  C9_upsert_idempotent Prod.fst ⟨"raw", 5, 1, 2⟩ [((1 : Nat), (10 : Nat))]
    [(1, 11), (2, 20), (1, 12)] (by decide)

end HistPipe
